import Mathlib

/-!
Verification of `scripts/package.py`, the PULSAR KiCad library packaging
script.  The script is shallowly embedded: JSON documents become an
inductive `Json` type, the filesystem becomes a tree of files and
directories, and every function of the script becomes a pure Lean
function over those types.  Fallible operations return `Except String`,
mirroring the Python exceptions that can be raised before the script
writes anything back to disk.
-/

namespace Pulsar

/-! ## JSON documents

Model of the JSON values produced by `json.load`: objects are ordered
association lists with (in practice) unique keys, exactly like Python
dicts preserve insertion order. -/

inductive Json where
  | null : Json
  | bool : Bool → Json
  | num : Int → Json
  | str : String → Json
  | arr : List Json → Json
  | obj : List (String × Json) → Json

/-- Lookup of a key in the field list of a JSON object (Python `d[k]` /
`d.get(k)` on a dict: first — and in practice only — binding wins). -/
def lookupField : List (String × Json) → String → Option Json
  | [], _ => none
  | f :: fs, key => if f.1 = key then some f.2 else lookupField fs key

/-- Python subscript `j[key]` on a JSON value; `none` both when the key is
absent and when the value is not an object (both raise in Python). -/
def Json.lookup : Json → String → Option Json
  | Json.obj fields, key => lookupField fields key
  | _, _ => none

/-- Python dict assignment `d[k] = v`: replace the binding in place if the
key exists (keeping its position), otherwise append a new binding. -/
def setField : List (String × Json) → String → Json → List (String × Json)
  | [], key, val => [(key, val)]
  | f :: fs, key, val =>
    if f.1 = key then (key, val) :: fs else f :: setField fs key val

/-- Dict assignment lifted to JSON values (no-op on non-objects; the
script only ever applies it to objects). -/
def Json.objSet : Json → String → Json → Json
  | Json.obj fields, key, val => Json.obj (setField fields key val)
  | j, _, _ => j

/-! ## Manifest Updater (`update_packages_json`, lines 79-124) -/

/-- Download URL synthesized at lines 91-94 of `package.py`. -/
def download_url (tag version : String) : String :=
  "https://github.com/Alex-C-EE/PULSAR-KiCad-Lib/releases/download/" ++ tag ++ "/" ++
    "PULSAR-KiCad-Lib-" ++ version ++ ".zip"

/-- The `new_version_entry` dict built at lines 96-104 of `package.py`. -/
def new_version_entry (version tag sha256 : String)
    (download_size install_size : Int) : Json :=
  Json.obj
    [ ("version", Json.str version)
    , ("status", Json.str "stable")
    , ("kicad_version", Json.str "8.0")
    , ("download_url", Json.str (download_url tag version))
    , ("download_sha256", Json.str sha256)
    , ("download_size", Json.num download_size)
    , ("install_size", Json.num install_size) ]

/-- Python `v["version"] == version` where `version` is a string: string
equality when the value is a string, `False` for every other JSON value. -/
def jsonEqStr (j : Json) (s : String) : Bool :=
  match j with
  | Json.str t => t = s
  | _ => false

/-- Whether a version record matches the given version string; this is the
test performed by the loop at lines 111-115. -/
def hasVersion (version : String) (v : Json) : Bool :=
  match v.lookup "version" with
  | some jv => jsonEqStr jv version
  | none => false

/-- The replace-or-append loop of lines 110-117: scan the list for the
first entry whose `"version"` equals the given version and replace it in
place, else append the new entry at the end.  An entry without a
`"version"` key makes the scan raise `KeyError` (before the file is
rewritten). -/
def upsertVersions : List Json → String → Json → Except String (List Json)
  | [], _, entry => Except.ok [entry]
  | v :: rest, version, entry =>
    match v.lookup "version" with
    | none => Except.error "KeyError: version"
    | some jv =>
      if jsonEqStr jv version then Except.ok (entry :: rest)
      else Except.map (fun r => v :: r) (upsertVersions rest version entry)

/-- The pure core of `update_packages_json` (lines 88-118): everything the
function computes between reading the manifest and reopening it for
writing.  Every malformed shape raises in Python before the write at line
120, and is an `Except.error` here. -/
def update_packages_json (data : Json) (version tag sha256 : String)
    (download_size install_size : Int) : Except String Json :=
  match data.lookup "packages" with
  | none => Except.error "KeyError: packages"
  | some (Json.arr []) => Except.error "IndexError: list index out of range"
  | some (Json.arr (pkg :: restPkgs)) =>
    match pkg with
    | Json.obj _ =>
      let versions : Option (List Json) :=
        match pkg.lookup "versions" with
        | some (Json.arr vs) => some vs
        | none => some []
        | some _ => none
      match versions with
      | none => Except.error "TypeError: versions is not a list"
      | some vs =>
        match upsertVersions vs version
            (new_version_entry version tag sha256 download_size install_size) with
        | Except.error e => Except.error e
        | Except.ok vs' =>
          Except.ok (data.objSet "packages"
            (Json.arr (pkg.objSet "versions" (Json.arr vs') :: restPkgs)))
    | _ => Except.error "AttributeError: no attribute get"
  | some _ => Except.error "TypeError: packages is not a list"

/-- One invocation's effect on the manifest file.  The script reads the
file (line 88), computes the new document (lines 91-118) and only then
reopens the file for writing (line 120); an exception raised during the
computation propagates before the write, leaving the on-disk content
untouched.  The second component is the on-disk content afterwards. -/
def run_update_packages_json (onDisk : Json) (version tag sha256 : String)
    (download_size install_size : Int) : Except String Unit × Json :=
  match update_packages_json onDisk version tag sha256 download_size install_size with
  | Except.ok newDoc => (Except.ok (), newDoc)
  | Except.error e => (Except.error e, onDisk)

/-! ## In-Archive Metadata Updater (`update_metadata_json`, lines 127-144) -/

/-- The single version record written at lines 132-138. -/
def metadata_version_entry (version : String) : Json :=
  Json.obj
    [ ("version", Json.str version)
    , ("status", Json.str "stable")
    , ("kicad_version", Json.str "8.0") ]

/-- The pure core of `update_metadata_json`: unconditionally overwrite the
`"versions"` key with a single-element list for the given version. -/
def update_metadata_json (data : Json) (version : String) : Except String Json :=
  match data with
  | Json.obj fields =>
    Except.ok ((Json.obj fields).objSet "versions"
      (Json.arr [metadata_version_entry version]))
  | _ => Except.error "TypeError: document is not an object"

/-! ## Filesystem model

A directory tree: regular files carry their byte contents, directories an
ordered list of named children.  The order of the children list is the
enumeration order the OS happens to return — two observations of the same
on-disk tree may present the children of each directory in different
orders, which is exactly what the Archive Builder's sorting defends
against. -/

inductive Entry where
  | file : List Nat → Entry
  | dir : List (String × Entry) → Entry

/-- Lookup of a child by name inside a directory's children list. -/
def findEntry? (name : String) : List (String × Entry) → Option Entry
  | [] => none
  | c :: cs => if c.1 = name then some c.2 else findEntry? name cs

/-- Resolution of a relative path (list of components) against a tree:
what the OS returns for `stat`/`is_file`/`is_dir`/`open` on that path. -/
def resolve : Entry → List String → Option Entry
  | e, [] => some e
  | Entry.file _, _ :: _ => none
  | Entry.dir cs, n :: q =>
    match findEntry? n cs with
    | some c => resolve c q
    | none => none

mutual

/-- Paths (relative to the given entry) of all descendants — files and
directories — in enumeration order: the model of `Path.rglob("*")`. -/
def descendants : Entry → List (List String)
  | Entry.file _ => []
  | Entry.dir cs => descendantsList cs

def descendantsList : List (String × Entry) → List (List String)
  | [] => []
  | c :: cs => [c.1] :: (descendants c.2).map (fun q => c.1 :: q) ++ descendantsList cs

end

mutual

/-- Well-formedness of a tree as an observation of a real filesystem: the
children of every directory have pairwise distinct names. -/
def Entry.wf : Entry → Bool
  | Entry.file _ => true
  | Entry.dir cs => decide ((cs.map Prod.fst).Nodup) && wfChildren cs

def wfChildren : List (String × Entry) → Bool
  | [] => true
  | c :: cs => c.2.wf && wfChildren cs

end

/-! ## String and path ordering

Python compares strings by Unicode code point and sorts `Path` values
lexicographically on their components.  (Core's `String.ltb` is opaque to
the kernel, so the comparison is spelled out on the character lists.) -/

/-- Code-point lexicographic comparison of character lists: Python's `<`
on strings. -/
def charsLt : List Char → List Char → Bool
  | [], [] => false
  | [], _ :: _ => true
  | _ :: _, [] => false
  | a :: as, b :: bs =>
    if a.toNat < b.toNat then true
    else if b.toNat < a.toNat then false
    else charsLt as bs

/-- Strict comparison of strings by code points. -/
def stringLt (a b : String) : Bool := charsLt a.data b.data

/-- Lexicographic comparison of paths by components, as `sorted` orders
`Path` values. -/
def pathLeB : List String → List String → Bool
  | [], _ => true
  | _ :: _, [] => false
  | a :: as, b :: bs =>
    if stringLt a b then true
    else if stringLt b a then false
    else pathLeB as bs

/-- Ordering relation on paths used to sort the `rglob` output. -/
def pathR (x y : List String) : Prop := pathLeB x y = true

instance : DecidableRel pathR := fun x y => instDecidableEqBool (pathLeB x y) true

/-- Ordering of directory children by name, used only to state that two
observations present the same tree (`sortTree` below). -/
def keyR (a b : String × Entry) : Prop := stringLt b.1 a.1 = false

instance : DecidableRel keyR := fun a b => instDecidableEqBool (stringLt b.1 a.1) false

mutual

/-- Canonical form of a tree: children of every directory sorted by name.
Two enumerations of the same on-disk tree have the same canonical form. -/
def sortTree : Entry → Entry
  | Entry.file bs => Entry.file bs
  | Entry.dir cs => Entry.dir (List.insertionSort keyR (sortChildren cs))

def sortChildren : List (String × Entry) → List (String × Entry)
  | [] => []
  | c :: cs => (c.1, sortTree c.2) :: sortChildren cs

end

/-! ## Size Accumulator (`compute_install_size`, lines 25-35) -/

/-- The size contributed by one descendant path of a directory: `st_size`
when `is_file()` holds, nothing otherwise (the `rglob` loop at lines
30-32 skips directories). -/
def sizeOpt (e : Entry) (q : List String) : Option Nat :=
  match resolve e q with
  | some (Entry.file bs) => some bs.length
  | _ => none

/-- The accumulation loop of `compute_install_size`: for each input path,
if it is a directory, add the sizes of every regular file found by
`rglob("*")`; if it is a regular file, add its own size; otherwise add
nothing. -/
def compute_install_size (root : Entry) (directories : List (List String)) : Nat :=
  directories.foldl
    (fun total d =>
      match resolve root d with
      | some (Entry.dir cs) =>
        total + ((descendants (Entry.dir cs)).filterMap (sizeOpt (Entry.dir cs))).sum
      | some (Entry.file bs) => total + bs.length
      | none => total)
    0

/-- Whether a path resolves to a regular file. -/
def isFileAt (e : Entry) (q : List String) : Bool :=
  match resolve e q with
  | some (Entry.file _) => true
  | _ => false

/-- Size of the regular file at a path (zero when there is none). -/
def sizeAt (e : Entry) (q : List String) : Nat :=
  match resolve e q with
  | some (Entry.file bs) => bs.length
  | _ => 0

/-- Specification-side definition: the paths of every regular file
transitively reachable from one input path. -/
def reachableFrom (root : Entry) (p : List String) : List (List String) :=
  match resolve root p with
  | some (Entry.dir cs) =>
    ((descendants (Entry.dir cs)).filter (isFileAt (Entry.dir cs))).map (fun q => p ++ q)
  | some (Entry.file _) => [p]
  | none => []

/-- Specification-side definition, following the claim's words: the sum of
byte lengths of all regular files reachable from the inputs with every
reachable file counted once (duplicates removed before summing). -/
def sumReachableOnce (root : Entry) (inputs : List (List String)) : Nat :=
  (((inputs.map (reachableFrom root)).flatten).dedup.map (sizeAt root)).sum

/-! ## Archive Builder (`create_zip_archive`, lines 38-67) -/

/-- The fixed item list of lines 48-54, as paths relative to the root. -/
def zipItems : List (List String) :=
  [["metadata.json"], ["resources"], ["symbols"], ["footprints"], ["3dmodels"]]

/-- Archive member emitted for one path from the sorted `rglob` listing:
regular files are written under their forward-slash relative name,
everything else is skipped (lines 62-65). -/
def memberFor (root : Entry) (q : List String) : Option (String × List Nat) :=
  match resolve root q with
  | some (Entry.file bs) => some (String.intercalate "/" q, bs)
  | _ => none

/-- Members contributed by one item of the fixed list (lines 57-65): a
regular file is written directly; a directory contributes every regular
file below it, in sorted path order; a missing item contributes nothing. -/
def itemMembers (root : Entry) (item : List String) : List (String × List Nat) :=
  match resolve root item with
  | some (Entry.file bs) => [(String.intercalate "/" item, bs)]
  | some (Entry.dir cs) =>
    (List.insertionSort pathR
        ((descendants (Entry.dir cs)).map (fun q => item ++ q))).filterMap
      (memberFor root)
  | none => []

/-- The archive produced by `create_zip_archive`, modelled as the ordered
list of members (name, byte contents) written into the zip. -/
def create_zip_archive (root : Entry) : List (String × List Nat) :=
  (zipItems.map (itemMembers root)).flatten

/-! ## Hash Computer (`compute_sha256`, lines 70-76) -/

/-- The `iter(lambda: f.read(8192), b"")` loop: split the file contents
into chunks of at most 8192 bytes, stopping at the first empty read. -/
def readChunks : List Nat → List (List Nat)
  | [] => []
  | b :: bs => ((b :: bs).take 8192) :: readChunks ((b :: bs).drop 8192)
termination_by l => l.length
decreasing_by simp [List.length_drop]; omega

/-- Model of a `hashlib` hash object.  Its documented contract is that
`update` concatenates onto the byte stream fed so far and `hexdigest`
is a function of that accumulated stream alone; `hexOf` is that
function. -/
structure HashModel where
  hexOf : List Nat → String

/-- The body of `compute_sha256`: start from the empty stream, feed each
chunk with `update`, and return the hex digest of the final state. -/
def compute_sha256 (h : HashModel) (content : List Nat) : String :=
  h.hexOf ((readChunks content).foldl (fun acc chunk => acc ++ chunk) [])

/-! ## Validator (the validation step of `main`, lines 187-206) -/

/-- Required members and directory markers checked at lines 191-192. -/
def requiredMembers : List String := ["metadata.json"]

/-- Required directory name markers checked at lines 192 and 196-198. -/
def requiredDirMarkers : List String := ["symbols/", "footprints/"]

/-- Comparison of one character list being an initial segment of another,
by code points. -/
def charsStart : List Char → List Char → Bool
  | [], _ => true
  | _ :: _, [] => false
  | a :: as, b :: bs => a.toNat == b.toNat && charsStart as bs

/-- Python `n.startswith(pre)`.  (Core's `String.startsWith` is opaque to
the kernel, so it is spelled out on the character lists.) -/
def strStarts (pre n : String) : Bool := charsStart pre.data n.data

/-- Warnings printed by the loops at lines 193-198. -/
def validation_warnings (names : List String) : List String :=
  (requiredMembers.filter (fun req => !(names.contains req))).map
      (fun req => "  WARNING: Missing required file: " ++ req) ++
    (requiredDirMarkers.filter (fun pre => !(names.any (fun n => strStarts pre n)))).map
      (fun pre => "  WARNING: Missing required directory: " ++ pre)

/-- Outcome of the validation step of `main`. -/
structure ValidationOutcome where
  warnings : List String
  exitSuccess : Bool
  archiveAfter : Option (List (String × List Nat))

/-- The validation step (lines 187-206): it reads the name list of the
archive already written to disk, prints warnings, performs no further
writes or deletions, and `main` then returns normally. -/
def run_validation (archive : List (String × List Nat)) : ValidationOutcome :=
  { warnings := validation_warnings (archive.map Prod.fst)
  , exitSuccess := true
  , archiveAfter := some archive }

/-- Structural induction principle for filesystem trees that presents a
directory's children by membership. -/
def Entry.inductionOn {P : Entry → Prop} (e : Entry)
    (hf : ∀ bs, P (Entry.file bs))
    (hd : ∀ cs, (∀ c ∈ cs, P c.2) → P (Entry.dir cs)) : P e :=
  match e with
  | Entry.file bs => hf bs
  | Entry.dir cs => hd cs (fun c _hc => Entry.inductionOn c.2 hf hd)
termination_by sizeOf e
decreasing_by
  have h1 := List.sizeOf_lt_of_mem _hc
  obtain ⟨n, ce⟩ := c
  simp only [Prod.mk.sizeOf_spec] at h1
  simp only [Entry.dir.sizeOf_spec]
  omega

/-! ## Derived definitions used to state the claims -/

/-- Contribution of a single input path to `compute_install_size` (the
body of the loop over `directories`). -/
def contribOf (root : Entry) (d : List String) : Nat :=
  match resolve root d with
  | some (Entry.dir cs) =>
    ((descendants (Entry.dir cs)).filterMap (sizeOpt (Entry.dir cs))).sum
  | some (Entry.file bs) => bs.length
  | none => 0

/-! ## Concrete inputs used by witnesses and counterexamples -/

/-- Concrete version record used by witnesses. -/
def verW : Json :=
  Json.obj [("version", Json.str "1.0.0"), ("status", Json.str "stable")]

/-- Concrete package record used by witnesses. -/
def pkgW : Json :=
  Json.obj [("name", Json.str "PULSAR"), ("versions", Json.arr [verW])]

/-- Concrete manifest document used by witnesses. -/
def dataW : Json := Json.obj [("packages", Json.arr [pkgW])]

/-- Tree with a directory input and a file inside it: feeding both paths
to the Size Accumulator counts the file twice. -/
def fsA : Entry :=
  Entry.dir [("a", Entry.dir [("f", Entry.file [0, 0, 0, 0, 0])])]

/-- Tree with two disjoint inputs, for the amended Size Accumulator
statement. -/
def fsB : Entry :=
  Entry.dir [("a", Entry.dir [("f", Entry.file [0])]), ("b", Entry.file [0, 0])]

/-- A packaging root as one run might enumerate it. -/
def fsZ : Entry :=
  Entry.dir
    [ ("symbols", Entry.dir
        [("b.kicad_sym", Entry.file [1]), ("a.kicad_sym", Entry.file [2])])
    , ("metadata.json", Entry.file [3]) ]

/-- The same packaging root as a second run might enumerate it: the same
files, with every directory's children listed in a different order. -/
def fsZalt : Entry :=
  Entry.dir
    [ ("metadata.json", Entry.file [3])
    , ("symbols", Entry.dir
        [("a.kicad_sym", Entry.file [2]), ("b.kicad_sym", Entry.file [1])]) ]

/-! ## Lemmas about the JSON model and the Manifest Updater -/

theorem lookup_some_obj {j : Json} {k : String} {v : Json}
    (h : j.lookup k = some v) : ∃ fs, j = Json.obj fs := by
  cases j with
  | obj fs => exact ⟨fs, rfl⟩
  | null => simp [Json.lookup] at h
  | bool b => simp [Json.lookup] at h
  | num n => simp [Json.lookup] at h
  | str s => simp [Json.lookup] at h
  | arr xs => simp [Json.lookup] at h

theorem lookupField_setField_self (fs : List (String × Json)) (k : String) (v : Json) :
    lookupField (setField fs k v) k = some v := by
  induction fs with
  | nil => simp [setField, lookupField]
  | cons f fs ih =>
      by_cases h : f.1 = k
      · simp [setField, h, lookupField]
      · simp [setField, h, lookupField, ih]

theorem setField_setField (fs : List (String × Json)) (k : String) (v w : Json) :
    setField (setField fs k v) k w = setField fs k w := by
  induction fs with
  | nil => simp [setField]
  | cons f fs ih =>
      by_cases h : f.1 = k
      · simp [setField, h]
      · simp [setField, h, ih]

theorem objSet_lookup_self (fs : List (String × Json)) (k : String) (v : Json) :
    ((Json.obj fs).objSet k v).lookup k = some v := by
  simp [Json.objSet, Json.lookup, lookupField_setField_self]

theorem objSet_objSet (fs : List (String × Json)) (k : String) (v w : Json) :
    ((Json.obj fs).objSet k v).objSet k w = (Json.obj fs).objSet k w := by
  simp [Json.objSet, setField_setField]

theorem new_version_entry_version (version tag sha256 : String) (ds is_ : Int) :
    (new_version_entry version tag sha256 ds is_).lookup "version" =
      some (Json.str version) := rfl

theorem hasVersion_new_version_entry (version tag sha256 : String) (ds is_ : Int) :
    hasVersion version (new_version_entry version tag sha256 ds is_) = true := by
  simp [hasVersion, new_version_entry_version, jsonEqStr]

theorem upsertVersions_eq (vs : List Json) (version : String) (entry : Json)
    (hk : ∀ v ∈ vs, (Json.lookup v "version").isSome = true) :
    upsertVersions vs version entry =
      Except.ok
        (if vs.any (hasVersion version) then
          vs.set (vs.findIdx (hasVersion version)) entry
        else vs ++ [entry]) := by
  induction vs with
  | nil => simp [upsertVersions]
  | cons v rest ih =>
      have hv := hk v (List.mem_cons_self v rest)
      obtain ⟨jv, hjv⟩ := Option.isSome_iff_exists.mp hv
      have hhv : hasVersion version v = jsonEqStr jv version := by
        simp [hasVersion, hjv]
      by_cases hmatch : jsonEqStr jv version = true
      · simp [upsertVersions, hjv, hmatch, List.any_cons, List.findIdx_cons, hhv]
      · have hmatch' : jsonEqStr jv version = false := by
          simpa using hmatch
        have ih' := ih (fun w hw => hk w (List.mem_cons_of_mem v hw))
        simp only [upsertVersions, hjv, hmatch', ih', Except.map, List.any_cons, hhv,
          Bool.false_or, List.findIdx_cons, Bool.cond_eq_if, if_neg]
        by_cases hrest : rest.any (hasVersion version) = true
        · simp [hrest, List.set]
        · simp [hrest]

theorem upsertVersions_mem {vs vs' : List Json} {version : String} {entry : Json}
    (h : upsertVersions vs version entry = Except.ok vs') : entry ∈ vs' := by
  induction vs generalizing vs' with
  | nil =>
      simp [upsertVersions] at h
      simp [← h]
  | cons v rest ih =>
      simp only [upsertVersions] at h
      cases hjv : Json.lookup v "version" with
      | none => simp [hjv] at h
      | some jv =>
          simp only [hjv] at h
          by_cases hmatch : jsonEqStr jv version = true
          · simp [hmatch] at h
            simp [← h]
          · have hmatch' : jsonEqStr jv version = false := by simpa using hmatch
            simp only [hmatch', if_neg, Bool.false_eq_true, not_false_iff] at h
            cases hrec : upsertVersions rest version entry with
            | error e => simp [hrec, Except.map] at h
            | ok r =>
                simp [hrec, Except.map] at h
                exact h ▸ List.mem_cons_of_mem v (ih hrec)

theorem upsertVersions_idem {vs vs' : List Json} {version : String} {entry : Json}
    (hentry : entry.lookup "version" = some (Json.str version))
    (h : upsertVersions vs version entry = Except.ok vs') :
    upsertVersions vs' version entry = Except.ok vs' := by
  have hself : jsonEqStr (Json.str version) version = true := by simp [jsonEqStr]
  induction vs generalizing vs' with
  | nil =>
      simp [upsertVersions] at h
      simp [← h, upsertVersions, hentry, hself]
  | cons v rest ih =>
      simp only [upsertVersions] at h
      cases hjv : Json.lookup v "version" with
      | none => simp [hjv] at h
      | some jv =>
          simp only [hjv] at h
          by_cases hmatch : jsonEqStr jv version = true
          · simp only [hmatch, if_pos] at h
            cases h
            simp [upsertVersions, hentry, hself]
          · have hmatch' : jsonEqStr jv version = false := by simpa using hmatch
            simp only [hmatch', if_neg, Bool.false_eq_true, not_false_iff] at h
            cases hrec : upsertVersions rest version entry with
            | error e => simp [hrec, Except.map] at h
            | ok r =>
                simp [hrec, Except.map] at h
                subst h
                simp [upsertVersions, hjv, hmatch', ih hrec, Except.map]

theorem update_packages_json_unfold {data pkg : Json} {restPkgs vs vs' : List Json}
    {version tag sha256 : String} {ds is_ : Int}
    (h1 : data.lookup "packages" = some (Json.arr (pkg :: restPkgs)))
    (h2 : pkg.lookup "versions" = some (Json.arr vs))
    (hup : upsertVersions vs version (new_version_entry version tag sha256 ds is_) =
      Except.ok vs') :
    update_packages_json data version tag sha256 ds is_ =
      Except.ok (data.objSet "packages"
        (Json.arr (pkg.objSet "versions" (Json.arr vs') :: restPkgs))) := by
  obtain ⟨gs, hpkg⟩ := lookup_some_obj h2
  subst hpkg
  simp [update_packages_json, h1, h2, hup]

theorem verW_key : ∀ v ∈ [verW], ∃ s, Json.lookup v "version" = some (Json.str s) := by
  intro v hv
  simp only [List.mem_singleton] at hv
  exact ⟨"1.0.0", by simp [hv, verW, Json.lookup, lookupField]⟩

/-! ## Claim C1: the Manifest Updater performs an upsert keyed by version -/

/-- C1: for every manifest whose first package has a versions list (of
version records carrying version strings), `update_packages_json` upserts
keyed by the version string: when some entry matches, the first matching
entry is replaced at its position, the length is unchanged and every other
position is untouched; when none matches, the new entry is appended and
the length grows by exactly one. -/
theorem update_packages_json_upsert
    (data pkg : Json) (restPkgs vs : List Json)
    (version tag sha256 : String) (ds is_ : Int)
    (h1 : data.lookup "packages" = some (Json.arr (pkg :: restPkgs)))
    (h2 : pkg.lookup "versions" = some (Json.arr vs))
    (hk : ∀ v ∈ vs, ∃ s, Json.lookup v "version" = some (Json.str s)) :
    ∃ vs',
      update_packages_json data version tag sha256 ds is_ =
        Except.ok (data.objSet "packages"
          (Json.arr (pkg.objSet "versions" (Json.arr vs') :: restPkgs))) ∧
      (vs.any (hasVersion version) = true →
        vs' = vs.set (vs.findIdx (hasVersion version))
            (new_version_entry version tag sha256 ds is_) ∧
        vs'.length = vs.length ∧
        ∀ j, j ≠ vs.findIdx (hasVersion version) → vs'[j]? = vs[j]?) ∧
      (vs.any (hasVersion version) = false →
        vs' = vs ++ [new_version_entry version tag sha256 ds is_] ∧
        vs'.length = vs.length + 1) := by
  have hk' : ∀ v ∈ vs, (Json.lookup v "version").isSome = true := by
    intro v hv
    obtain ⟨s, hs⟩ := hk v hv
    simp [hs]
  have hup := upsertVersions_eq vs version
    (new_version_entry version tag sha256 ds is_) hk'
  by_cases hany : vs.any (hasVersion version) = true
  · rw [if_pos hany] at hup
    refine ⟨_, update_packages_json_unfold h1 h2 hup, ?_, ?_⟩
    · intro _
      refine ⟨rfl, by simp, ?_⟩
      intro j hj
      exact List.getElem?_set_ne (Ne.symm hj)
    · intro hfalse
      rw [hany] at hfalse
      cases hfalse
  · have hany' : vs.any (hasVersion version) = false := by simpa using hany
    rw [if_neg hany] at hup
    refine ⟨_, update_packages_json_unfold h1 h2 hup, ?_, ?_⟩
    · intro htrue
      rw [htrue] at hany'
      cases hany'
    · intro _
      exact ⟨rfl, by simp⟩

theorem update_packages_json_upsert_witness :
    ∃ vs', update_packages_json dataW "1.0.0" "v1.0.0" "aa" 10 20 =
      Except.ok (dataW.objSet "packages"
        (Json.arr (pkgW.objSet "versions" (Json.arr vs') :: []))) := by
  obtain ⟨vs', h, -, -⟩ :=
    update_packages_json_upsert dataW pkgW [] [verW] "1.0.0" "v1.0.0" "aa" 10 20
      rfl rfl verW_key
  exact ⟨vs', h⟩

/-! ## Claim C4: the entry written carries the fixed fields and URL -/

/-- C4: whenever the Manifest Updater's replace-or-append loop succeeds
with the freshly built entry, that entry lands in the resulting list, and
it carries status exactly `"stable"`, the fixed platform tag `"8.0"`, and
a download URL synthesized from the fixed base template, the tag and the
version, ending in `PULSAR-KiCad-Lib-<version>.zip`. -/
theorem new_version_entry_fields
    (version tag sha256 : String) (ds is_ : Int) (vs vs' : List Json)
    (h : upsertVersions vs version (new_version_entry version tag sha256 ds is_) =
      Except.ok vs') :
    new_version_entry version tag sha256 ds is_ ∈ vs' ∧
    (new_version_entry version tag sha256 ds is_).lookup "status" =
      some (Json.str "stable") ∧
    (new_version_entry version tag sha256 ds is_).lookup "kicad_version" =
      some (Json.str "8.0") ∧
    (new_version_entry version tag sha256 ds is_).lookup "download_url" =
      some (Json.str (download_url tag version)) ∧
    ∃ pre, download_url tag version = pre ++ "PULSAR-KiCad-Lib-" ++ version ++ ".zip" :=
  ⟨upsertVersions_mem h, rfl, rfl, rfl,
    "https://github.com/Alex-C-EE/PULSAR-KiCad-Lib/releases/download/" ++ tag ++ "/", rfl⟩

theorem new_version_entry_fields_witness :
    new_version_entry "1.0.0" "v1.0.0" "aa" 10 20 ∈
      [new_version_entry "1.0.0" "v1.0.0" "aa" 10 20] :=
  (new_version_entry_fields "1.0.0" "v1.0.0" "aa" 10 20 []
    [new_version_entry "1.0.0" "v1.0.0" "aa" 10 20] rfl).1

/-! ## Claim C7: the Manifest Updater is an idempotent upsert -/

/-- C7: invoking `update_packages_json` twice with the same version, tag,
hash and sizes yields the same manifest document as invoking it once, and
invoking it with a version string absent from the list grows the versions
list by exactly one. -/
theorem update_packages_json_idempotent
    (data pkg : Json) (restPkgs vs : List Json)
    (version tag sha256 : String) (ds is_ : Int)
    (h1 : data.lookup "packages" = some (Json.arr (pkg :: restPkgs)))
    (h2 : pkg.lookup "versions" = some (Json.arr vs))
    (hk : ∀ v ∈ vs, ∃ s, Json.lookup v "version" = some (Json.str s)) :
    (update_packages_json data version tag sha256 ds is_).bind
        (fun d => update_packages_json d version tag sha256 ds is_) =
      update_packages_json data version tag sha256 ds is_ ∧
    (vs.any (hasVersion version) = false →
      ∃ vs', update_packages_json data version tag sha256 ds is_ =
          Except.ok (data.objSet "packages"
            (Json.arr (pkg.objSet "versions" (Json.arr vs') :: restPkgs))) ∧
        vs'.length = vs.length + 1) := by
  have hk' : ∀ v ∈ vs, (Json.lookup v "version").isSome = true := by
    intro v hv
    obtain ⟨s, hs⟩ := hk v hv
    simp [hs]
  have hup := upsertVersions_eq vs version
    (new_version_entry version tag sha256 ds is_) hk'
  obtain ⟨fs, hdata⟩ := lookup_some_obj h1
  obtain ⟨gs, hpkg⟩ := lookup_some_obj h2
  have hfirst := update_packages_json_unfold h1 h2 hup
  have h1' : (data.objSet "packages"
      (Json.arr (pkg.objSet "versions"
        (Json.arr (if vs.any (hasVersion version) then
            vs.set (vs.findIdx (hasVersion version))
              (new_version_entry version tag sha256 ds is_)
          else vs ++ [new_version_entry version tag sha256 ds is_])) :: restPkgs))).lookup
        "packages" =
      some (Json.arr (pkg.objSet "versions"
        (Json.arr (if vs.any (hasVersion version) then
            vs.set (vs.findIdx (hasVersion version))
              (new_version_entry version tag sha256 ds is_)
          else vs ++ [new_version_entry version tag sha256 ds is_])) :: restPkgs)) := by
    rw [hdata]
    exact objSet_lookup_self fs "packages" _
  have h2' : (pkg.objSet "versions"
      (Json.arr (if vs.any (hasVersion version) then
          vs.set (vs.findIdx (hasVersion version))
            (new_version_entry version tag sha256 ds is_)
        else vs ++ [new_version_entry version tag sha256 ds is_]))).lookup "versions" =
      some (Json.arr (if vs.any (hasVersion version) then
          vs.set (vs.findIdx (hasVersion version))
            (new_version_entry version tag sha256 ds is_)
        else vs ++ [new_version_entry version tag sha256 ds is_])) := by
    rw [hpkg]
    exact objSet_lookup_self gs "versions" _
  have hup2 := upsertVersions_idem
    (new_version_entry_version version tag sha256 ds is_) hup
  have hsecond := update_packages_json_unfold h1' h2' hup2
  constructor
  · rw [hfirst]
    have hcollapse1 : (pkg.objSet "versions"
        (Json.arr (if vs.any (hasVersion version) then
            vs.set (vs.findIdx (hasVersion version))
              (new_version_entry version tag sha256 ds is_)
          else vs ++ [new_version_entry version tag sha256 ds is_]))).objSet "versions"
          (Json.arr (if vs.any (hasVersion version) then
              vs.set (vs.findIdx (hasVersion version))
                (new_version_entry version tag sha256 ds is_)
            else vs ++ [new_version_entry version tag sha256 ds is_])) =
        pkg.objSet "versions"
          (Json.arr (if vs.any (hasVersion version) then
              vs.set (vs.findIdx (hasVersion version))
                (new_version_entry version tag sha256 ds is_)
            else vs ++ [new_version_entry version tag sha256 ds is_])) := by
      rw [hpkg]
      exact objSet_objSet gs "versions" _ _
    rw [hcollapse1] at hsecond
    have hcollapse2 : (data.objSet "packages"
        (Json.arr (pkg.objSet "versions"
          (Json.arr (if vs.any (hasVersion version) then
              vs.set (vs.findIdx (hasVersion version))
                (new_version_entry version tag sha256 ds is_)
            else vs ++ [new_version_entry version tag sha256 ds is_])) :: restPkgs))).objSet
          "packages"
          (Json.arr (pkg.objSet "versions"
            (Json.arr (if vs.any (hasVersion version) then
                vs.set (vs.findIdx (hasVersion version))
                  (new_version_entry version tag sha256 ds is_)
              else vs ++ [new_version_entry version tag sha256 ds is_])) :: restPkgs)) =
        data.objSet "packages"
          (Json.arr (pkg.objSet "versions"
            (Json.arr (if vs.any (hasVersion version) then
                vs.set (vs.findIdx (hasVersion version))
                  (new_version_entry version tag sha256 ds is_)
              else vs ++ [new_version_entry version tag sha256 ds is_])) :: restPkgs)) := by
      rw [hdata]
      exact objSet_objSet fs "packages" _ _
    rw [hcollapse2] at hsecond
    exact hsecond
  · intro hany
    rw [if_neg (by simp [hany])] at hfirst
    exact ⟨_, hfirst, by simp⟩

theorem update_packages_json_idempotent_witness :
    (update_packages_json dataW "1.0.0" "v1.0.0" "aa" 10 20).bind
        (fun d => update_packages_json d "1.0.0" "v1.0.0" "aa" 10 20) =
      update_packages_json dataW "1.0.0" "v1.0.0" "aa" 10 20 :=
  (update_packages_json_idempotent dataW pkgW [] [verW] "1.0.0" "v1.0.0" "aa" 10 20
    rfl rfl verW_key).1

/-! ## Claim C9: the In-Archive Metadata Updater overwrites unconditionally -/

/-- C9: for every prior state of the metadata document (any JSON object,
with any number of prior version records), `update_metadata_json`
replaces the `"versions"` list with a single-element list describing only
the given version with the fixed status and platform tag. -/
theorem update_metadata_json_replaces (fields : List (String × Json)) (version : String) :
    ∃ d', update_metadata_json (Json.obj fields) version = Except.ok d' ∧
      d'.lookup "versions" = some (Json.arr [metadata_version_entry version]) ∧
      (metadata_version_entry version).lookup "version" = some (Json.str version) ∧
      (metadata_version_entry version).lookup "status" = some (Json.str "stable") ∧
      (metadata_version_entry version).lookup "kicad_version" = some (Json.str "8.0") :=
  ⟨_, rfl, objSet_lookup_self fields "versions" _, rfl, rfl, rfl⟩

/-! ## Claim C10: malformed manifests fail before the file is rewritten -/

/-- C10: when the manifest's top-level `"packages"` key is absent or maps
to an empty list, `update_packages_json` raises before reopening the file
for writing, so the on-disk manifest is unchanged when the error
propagates. -/
theorem update_packages_json_malformed_atomic
    (onDisk : Json) (version tag sha256 : String) (ds is_ : Int)
    (h : onDisk.lookup "packages" = none ∨
      onDisk.lookup "packages" = some (Json.arr [])) :
    (∃ e, update_packages_json onDisk version tag sha256 ds is_ = Except.error e) ∧
    (run_update_packages_json onDisk version tag sha256 ds is_).2 = onDisk := by
  obtain h | h := h
  · exact ⟨⟨"KeyError: packages", by simp [update_packages_json, h]⟩,
      by simp [run_update_packages_json, update_packages_json, h]⟩
  · exact ⟨⟨"IndexError: list index out of range",
        by simp [update_packages_json, h]⟩,
      by simp [run_update_packages_json, update_packages_json, h]⟩

theorem update_packages_json_malformed_atomic_witness :
    (run_update_packages_json (Json.obj []) "1.0.0" "v1.0.0" "aa" 10 20).2 =
      Json.obj [] :=
  (update_packages_json_malformed_atomic (Json.obj []) "1.0.0" "v1.0.0" "aa" 10 20
    (Or.inl rfl)).2

/-! ## Lemmas about the Size Accumulator -/

theorem foldl_add_sum {α : Type} (c : α → Nat) :
    ∀ (l : List α) (acc : Nat),
      l.foldl (fun t d => t + c d) acc = acc + (l.map c).sum := by
  intro l
  induction l with
  | nil => simp
  | cons d l ih =>
      intro acc
      simp [List.foldl_cons, ih, List.sum_cons, Nat.add_assoc]

theorem compute_install_size_eq_sum (root : Entry) (l : List (List String)) :
    compute_install_size root l = (l.map (contribOf root)).sum := by
  have hstep : ∀ (acc : Nat),
      l.foldl
        (fun total d =>
          match resolve root d with
          | some (Entry.dir cs) =>
            total + ((descendants (Entry.dir cs)).filterMap (sizeOpt (Entry.dir cs))).sum
          | some (Entry.file bs) => total + bs.length
          | none => total)
        acc =
      l.foldl (fun t d => t + contribOf root d) acc := by
    induction l with
    | nil => intro acc; rfl
    | cons d l ih =>
        intro acc
        have hone :
            (match resolve root d with
              | some (Entry.dir cs) =>
                acc + ((descendants (Entry.dir cs)).filterMap (sizeOpt (Entry.dir cs))).sum
              | some (Entry.file bs) => acc + bs.length
              | none => acc) = acc + contribOf root d := by
          unfold contribOf
          cases hres : resolve root d with
          | none => simp
          | some e => cases e <;> rfl
        simp only [List.foldl_cons, hone, ih]
  rw [compute_install_size, hstep 0, foldl_add_sum, Nat.zero_add]

theorem resolve_append (p : List String) :
    ∀ (root : Entry) (q : List String),
      resolve root (p ++ q) = (resolve root p).bind (fun e => resolve e q) := by
  induction p with
  | nil =>
      intro root q
      rw [List.nil_append]
      cases root <;> rfl
  | cons n p ih =>
      intro root q
      cases root with
      | file bs => rfl
      | dir cs =>
          show (match findEntry? n cs with
              | some c => resolve c (p ++ q)
              | none => none) = _
          cases hfind : findEntry? n cs with
          | none => simp [resolve, hfind]
          | some c => simp [resolve, hfind, ih]

theorem sizeAt_append {root e : Entry} {p : List String}
    (h : resolve root p = some e) (q : List String) :
    sizeAt root (p ++ q) = sizeAt e q := by
  simp [sizeAt, resolve_append, h]

theorem filterMap_sizeOpt_eq (e : Entry) (l : List (List String)) :
    (l.filterMap (sizeOpt e)).sum = ((l.filter (isFileAt e)).map (sizeAt e)).sum := by
  induction l with
  | nil => rfl
  | cons q l ih =>
      cases hres : resolve e q with
      | none => simp [List.filterMap_cons, List.filter_cons, sizeOpt, isFileAt, hres, ih]
      | some f =>
          cases f with
          | file bs =>
              simp [List.filterMap_cons, List.filter_cons, sizeOpt, isFileAt, sizeAt,
                hres, ih]
          | dir cs =>
              simp [List.filterMap_cons, List.filter_cons, sizeOpt, isFileAt, hres, ih]

theorem contribOf_eq_reachable (root : Entry) (p : List String) :
    contribOf root p = ((reachableFrom root p).map (sizeAt root)).sum := by
  cases hres : resolve root p with
  | none => simp [contribOf, reachableFrom, hres]
  | some e =>
      cases e with
      | file bs => simp [contribOf, reachableFrom, hres, sizeAt]
      | dir cs =>
          have hpt : ∀ q, sizeAt root (p ++ q) = sizeAt (Entry.dir cs) q :=
            sizeAt_append hres
          simp only [contribOf, reachableFrom, hres, List.map_map]
          rw [filterMap_sizeOpt_eq]
          congr 1
          apply List.map_congr_left
          intro q _
          simp only [Function.comp]
          exact (hpt q).symm

theorem compute_install_size_flatten (root : Entry) (l : List (List String)) :
    compute_install_size root l =
      (((l.map (reachableFrom root)).flatten).map (sizeAt root)).sum := by
  rw [compute_install_size_eq_sum, List.map_flatten, List.sum_flatten,
    List.map_map, List.map_map]
  congr 1
  apply List.map_congr_left
  intro p _
  exact contribOf_eq_reachable root p

/-! ## Claim C2 (counterexample): reachable files are not always counted once -/

/-- C2 is false as stated: with the directory `a` and the file `a/f` (5
bytes) both given as inputs, `compute_install_size` returns 10 — the file
is counted twice — while the sum over the set of reachable regular files,
each counted once, is 5. -/
theorem compute_install_size_not_counted_once :
    compute_install_size fsA [["a"], ["a", "f"]] = 10 ∧
    sumReachableOnce fsA [["a"], ["a", "f"]] = 5 ∧
    compute_install_size fsA [["a"], ["a", "f"]] ≠
      sumReachableOnce fsA [["a"], ["a", "f"]] := by
  refine ⟨by decide, by decide, by decide⟩

/-! ## Claim C2 (amended): the Size Accumulator counts each input's subtree -/

/-- C2 amended: `compute_install_size` sums, over the input list, the
sizes of all regular files reachable from each input — so a file
reachable from two different inputs is counted once per input.
Unconditionally, the result is invariant under permutation of the inputs
and inputs that do not exist contribute zero and raise no error; and in
the special case where no regular file is reachable from two different
positions of the input list, the result equals the sum of reachable file
sizes with every file counted once. -/
theorem compute_install_size_amended (root : Entry)
    (inputs inputs' : List (List String))
    (hperm : inputs.Perm inputs') :
    compute_install_size root inputs = compute_install_size root inputs' ∧
    compute_install_size root inputs =
      (inputs.map (fun p => ((reachableFrom root p).map (sizeAt root)).sum)).sum ∧
    (∀ p, resolve root p = none →
      compute_install_size root (p :: inputs) = compute_install_size root inputs) ∧
    (((inputs.map (reachableFrom root)).flatten).Nodup →
      compute_install_size root inputs = sumReachableOnce root inputs) := by
  refine ⟨?_, ?_, ?_, ?_⟩
  · rw [compute_install_size_eq_sum, compute_install_size_eq_sum]
    exact (hperm.map (contribOf root)).sum_eq
  · rw [compute_install_size_eq_sum]
    congr 1
    apply List.map_congr_left
    intro p _
    exact contribOf_eq_reachable root p
  · intro p hres
    rw [compute_install_size_eq_sum, compute_install_size_eq_sum, List.map_cons,
      List.sum_cons]
    simp [contribOf, hres]
  · intro hnodup
    rw [compute_install_size_flatten, sumReachableOnce,
      List.dedup_eq_self.mpr hnodup]

theorem compute_install_size_amended_witness :
    compute_install_size fsB [["a"], ["b"]] = compute_install_size fsB [["b"], ["a"]] ∧
    compute_install_size fsA [["a"], ["a", "f"]] =
      ([["a"], ["a", "f"]].map
        (fun p => ((reachableFrom fsA p).map (sizeAt fsA)).sum)).sum ∧
    compute_install_size fsB [["a"], ["b"]] = sumReachableOnce fsB [["a"], ["b"]] :=
  ⟨(compute_install_size_amended fsB [["a"], ["b"]] [["b"], ["a"]] (by decide)).1,
    (compute_install_size_amended fsA [["a"], ["a", "f"]] [["a"], ["a", "f"]]
      (List.Perm.refl _)).2.1,
    (compute_install_size_amended fsB [["a"], ["b"]] [["b"], ["a"]]
      (by decide)).2.2.2 (by decide)⟩

/-! ## Properties of the code-point orderings -/

theorem charsLt_irrefl : ∀ as, charsLt as as = false := by
  intro as
  induction as with
  | nil => rfl
  | cons a as ih => simp [charsLt, ih]

theorem charsLt_asymm : ∀ as bs, charsLt as bs = true → charsLt bs as = false := by
  intro as
  induction as with
  | nil =>
      intro bs h
      cases bs with
      | nil => simp [charsLt] at h
      | cons b bs => rfl
  | cons a as ih =>
      intro bs h
      cases bs with
      | nil => simp [charsLt] at h
      | cons b bs =>
          simp only [charsLt] at h ⊢
          by_cases hab : a.toNat < b.toNat
          · have hba : ¬ b.toNat < a.toNat := by omega
            simp [hab, hba]
          · by_cases hba : b.toNat < a.toNat
            · simp [hab, hba] at h
            · simp only [if_neg hab, if_neg hba] at h ⊢
              exact ih bs h

theorem charsLt_trans :
    ∀ as bs cs, charsLt as bs = true → charsLt bs cs = true → charsLt as cs = true := by
  intro as
  induction as with
  | nil =>
      intro bs cs h1 h2
      cases bs with
      | nil => simp [charsLt] at h1
      | cons b bs =>
          cases cs with
          | nil => simp [charsLt] at h2
          | cons c cs => rfl
  | cons a as ih =>
      intro bs cs h1 h2
      cases bs with
      | nil => simp [charsLt] at h1
      | cons b bs =>
          cases cs with
          | nil => simp [charsLt] at h2
          | cons c cs =>
              simp only [charsLt] at h1 h2 ⊢
              by_cases hab : a.toNat < b.toNat
              · by_cases hbc : b.toNat < c.toNat
                · have hac : a.toNat < c.toNat := by omega
                  simp [hac]
                · by_cases hcb : c.toNat < b.toNat
                  · simp [hbc, hcb] at h2
                  · have hac : a.toNat < c.toNat := by omega
                    simp [hac]
              · by_cases hba : b.toNat < a.toNat
                · simp [hab, hba] at h1
                · simp only [if_neg hab, if_neg hba] at h1
                  by_cases hbc : b.toNat < c.toNat
                  · have hac : a.toNat < c.toNat := by omega
                    simp [hac]
                  · by_cases hcb : c.toNat < b.toNat
                    · simp [hbc, hcb] at h2
                    · simp only [if_neg hbc, if_neg hcb] at h2
                      have hac : ¬ a.toNat < c.toNat := by omega
                      have hca : ¬ c.toNat < a.toNat := by omega
                      simp [if_neg hac, if_neg hca, ih bs cs h1 h2]

theorem charsLt_conn :
    ∀ as bs, charsLt as bs = false → charsLt bs as = false → as = bs := by
  intro as
  induction as with
  | nil =>
      intro bs h1 _
      cases bs with
      | nil => rfl
      | cons b bs => simp [charsLt] at h1
  | cons a as ih =>
      intro bs h1 h2
      cases bs with
      | nil => simp [charsLt] at h2
      | cons b bs =>
          simp only [charsLt] at h1 h2
          by_cases hab : a.toNat < b.toNat
          · simp [hab] at h1
          · by_cases hba : b.toNat < a.toNat
            · simp [hba] at h2
            · simp only [if_neg hab, if_neg hba] at h1 h2
              have htn : a.toNat = b.toNat := by omega
              have hchar : a = b := Char.ext (UInt32.ext htn)
              rw [hchar, ih bs h1 h2]

theorem stringLt_irrefl (a : String) : stringLt a a = false := charsLt_irrefl a.data

theorem stringLt_asymm {a b : String} (h : stringLt a b = true) :
    stringLt b a = false := charsLt_asymm a.data b.data h

theorem stringLt_trans {a b c : String} (h1 : stringLt a b = true)
    (h2 : stringLt b c = true) : stringLt a c = true :=
  charsLt_trans a.data b.data c.data h1 h2

theorem stringLt_conn {a b : String} (h1 : stringLt a b = false)
    (h2 : stringLt b a = false) : a = b :=
  String.ext (charsLt_conn a.data b.data h1 h2)

theorem pathLeB_total : ∀ x y : List String, pathLeB x y = true ∨ pathLeB y x = true := by
  intro x
  induction x with
  | nil => intro y; exact Or.inl rfl
  | cons a as ih =>
      intro y
      cases y with
      | nil => exact Or.inr rfl
      | cons b bs =>
          by_cases hab : stringLt a b = true
          · exact Or.inl (by simp [pathLeB, hab])
          · by_cases hba : stringLt b a = true
            · exact Or.inr (by simp [pathLeB, hba])
            · have hab' : stringLt a b = false := by simpa using hab
              have hba' : stringLt b a = false := by simpa using hba
              rcases ih bs with h | h
              · exact Or.inl (by simp [pathLeB, hab', hba', h])
              · exact Or.inr (by simp [pathLeB, hab', hba', h])

theorem pathLeB_trans :
    ∀ x y z : List String, pathLeB x y = true → pathLeB y z = true →
      pathLeB x z = true := by
  intro x
  induction x with
  | nil => intro y z _ _; rfl
  | cons a as ih =>
      intro y z h1 h2
      cases y with
      | nil => simp [pathLeB] at h1
      | cons b bs =>
          cases z with
          | nil => simp [pathLeB] at h2
          | cons c cs =>
              simp only [pathLeB] at h1 h2 ⊢
              by_cases hab : stringLt a b = true
              · by_cases hbc : stringLt b c = true
                · simp [stringLt_trans hab hbc]
                · by_cases hcb : stringLt c b = true
                  · simp [hbc, hcb] at h2
                  · have hbc' : stringLt b c = false := by simpa using hbc
                    have hcb' : stringLt c b = false := by simpa using hcb
                    have : b = c := stringLt_conn hbc' hcb'
                    subst this
                    simp [hab]
              · by_cases hba : stringLt b a = true
                · simp [hab, hba] at h1
                · have hab' : stringLt a b = false := by simpa using hab
                  have hba' : stringLt b a = false := by simpa using hba
                  have : a = b := stringLt_conn hab' hba'
                  subst this
                  simp only [hab'] at h1
                  simp only [Bool.false_eq_true, if_false] at h1
                  by_cases hbc : stringLt a c = true
                  · simp [hbc]
                  · by_cases hcb : stringLt c a = true
                    · simp [hbc, hcb] at h2
                    · have hbc' : stringLt a c = false := by simpa using hbc
                      have hcb' : stringLt c a = false := by simpa using hcb
                      simp [hbc', hcb'] at h2 ⊢
                      exact ih bs cs h1 h2

theorem pathLeB_antisymm :
    ∀ x y : List String, pathLeB x y = true → pathLeB y x = true → x = y := by
  intro x
  induction x with
  | nil =>
      intro y _ h2
      cases y with
      | nil => rfl
      | cons b bs => simp [pathLeB] at h2
  | cons a as ih =>
      intro y h1 h2
      cases y with
      | nil => simp [pathLeB] at h1
      | cons b bs =>
          simp only [pathLeB] at h1 h2
          by_cases hab : stringLt a b = true
          · have hba := stringLt_asymm hab
            simp [hab, hba] at h2
          · by_cases hba : stringLt b a = true
            · simp [hab, hba] at h1
            · have hab' : stringLt a b = false := by simpa using hab
              have hba' : stringLt b a = false := by simpa using hba
              have : a = b := stringLt_conn hab' hba'
              subst this
              simp only [hab'] at h1 h2
              simp only [Bool.false_eq_true, if_false] at h1 h2
              rw [ih bs h1 h2]

/-! ## Lemmas about trees, enumeration order and sorting -/

theorem sortChildren_eq_map (cs : List (String × Entry)) :
    sortChildren cs = cs.map (fun c => (c.1, sortTree c.2)) := by
  induction cs with
  | nil => rfl
  | cons c cs ih => simp [sortChildren, ih]

theorem descendantsList_eq_flatten (cs : List (String × Entry)) :
    descendantsList cs =
      (cs.map (fun c => [c.1] :: (descendants c.2).map (fun q => c.1 :: q))).flatten := by
  induction cs with
  | nil => rfl
  | cons c cs ih => simp [descendantsList, ih]

theorem wfChildren_iff (cs : List (String × Entry)) :
    wfChildren cs = true ↔ ∀ c ∈ cs, c.2.wf = true := by
  induction cs with
  | nil => simp [wfChildren]
  | cons c cs ih => simp [wfChildren, Bool.and_eq_true, ih]

theorem wf_dir_nodup {cs : List (String × Entry)}
    (h : (Entry.dir cs).wf = true) : (cs.map Prod.fst).Nodup := by
  rw [Entry.wf, Bool.and_eq_true, decide_eq_true_eq] at h
  exact h.1

theorem wf_dir_children {cs : List (String × Entry)}
    (h : (Entry.dir cs).wf = true) : ∀ c ∈ cs, c.2.wf = true := by
  rw [Entry.wf, Bool.and_eq_true] at h
  exact (wfChildren_iff cs).mp h.2

theorem findEntry?_map (n : String) (f : Entry → Entry) (cs : List (String × Entry)) :
    findEntry? n (cs.map (fun c => (c.1, f c.2))) = (findEntry? n cs).map f := by
  induction cs with
  | nil => rfl
  | cons c cs ih =>
      by_cases h : c.1 = n
      · simp [findEntry?, h]
      · simp [findEntry?, h, ih]

theorem findEntry?_perm {cs cs' : List (String × Entry)} (hperm : cs.Perm cs') :
    (cs.map Prod.fst).Nodup → ∀ n, findEntry? n cs = findEntry? n cs' := by
  induction hperm with
  | nil => intro _ n; rfl
  | cons x h ih =>
      intro hnd n
      have hnd' : _ := (List.nodup_cons.mp hnd).2
      by_cases hx : x.1 = n
      · simp [findEntry?, hx]
      · simp [findEntry?, hx, ih hnd' n]
  | swap x y l =>
      intro hnd n
      have hxy : y.1 ≠ x.1 := by
        have := (List.nodup_cons.mp hnd).1
        simp only [List.map_cons, List.mem_cons] at this
        intro hcontra
        exact this (Or.inl hcontra)
      by_cases hy : y.1 = n
      · have hx : ¬ x.1 = n := fun hc => hxy (hy.trans hc.symm)
        simp [findEntry?, hy, hx]
      · by_cases hx : x.1 = n
        · simp [findEntry?, hy, hx]
        · simp [findEntry?, hy, hx]
  | trans h₁ h₂ ih₁ ih₂ =>
      intro hnd n
      have hnd₂ := (h₁.map Prod.fst).nodup hnd
      rw [ih₁ hnd n, ih₂ hnd₂ n]

theorem findEntry?_mem {n : String} {cs : List (String × Entry)} {v : Entry}
    (h : findEntry? n cs = some v) : (n, v) ∈ cs := by
  induction cs with
  | nil => simp [findEntry?] at h
  | cons c cs ih =>
      by_cases hc : c.1 = n
      · rw [findEntry?, if_pos hc] at h
        injection h with h
        have hcv : (n, v) = c := Prod.ext hc.symm h.symm
        rw [hcv]
        exact List.mem_cons_self c cs
      · rw [findEntry?, if_neg hc] at h
        exact List.mem_cons_of_mem c (ih h)

theorem filterMap_ext {α β : Type} (l : List α) (f g : α → Option β)
    (h : ∀ a ∈ l, f a = g a) : l.filterMap f = l.filterMap g := by
  induction l with
  | nil => rfl
  | cons a l ih =>
      rw [List.filterMap_cons, List.filterMap_cons, h a (List.mem_cons_self a l),
        ih (fun b hb => h b (List.mem_cons_of_mem a hb))]

theorem flatten_perm_of_pointwise {α β : Type} (l : List α) (f g : α → List β)
    (h : ∀ a ∈ l, (f a).Perm (g a)) :
    ((l.map f).flatten).Perm ((l.map g).flatten) := by
  induction l with
  | nil => exact List.Perm.refl _
  | cons a l ih =>
      simp only [List.map_cons, List.flatten_cons]
      exact (h a (List.mem_cons_self a l)).append
        (ih (fun b hb => h b (List.mem_cons_of_mem a hb)))

theorem descendants_sortTree (e : Entry) :
    (descendants (sortTree e)).Perm (descendants e) := by
  induction e using Entry.inductionOn with
  | hf bs => exact List.Perm.refl _
  | hd cs ih =>
      show (descendantsList (List.insertionSort keyR (sortChildren cs))).Perm
        (descendantsList cs)
      rw [descendantsList_eq_flatten, descendantsList_eq_flatten]
      have h1 : ((List.insertionSort keyR (sortChildren cs)).map
            (fun c => [c.1] :: (descendants c.2).map (fun q => c.1 :: q))).flatten.Perm
          (((sortChildren cs).map
            (fun c => [c.1] :: (descendants c.2).map (fun q => c.1 :: q))).flatten) :=
        ((List.perm_insertionSort keyR (sortChildren cs)).map _).flatten
      refine h1.trans ?_
      rw [sortChildren_eq_map, List.map_map]
      exact flatten_perm_of_pointwise cs _ _
        (fun c hc => List.Perm.cons _ ((ih c hc).map _))

theorem resolve_sortTree (q : List String) :
    ∀ (e : Entry), e.wf = true →
      resolve (sortTree e) q = (resolve e q).map sortTree := by
  induction q with
  | nil =>
      intro e _
      cases e <;> rfl
  | cons n q ih =>
      intro e hwf
      cases e with
      | file bs => rfl
      | dir cs =>
          have hnd := wf_dir_nodup hwf
          have hch := wf_dir_children hwf
          have hnd' : ((sortChildren cs).map Prod.fst).Nodup := by
            rw [sortChildren_eq_map, List.map_map]
            exact hnd
          show (match findEntry? n (List.insertionSort keyR (sortChildren cs)) with
              | some c => resolve c q
              | none => none) = _
          rw [← findEntry?_perm (List.perm_insertionSort keyR (sortChildren cs)).symm
              hnd' n,
            sortChildren_eq_map cs, findEntry?_map]
          cases hfind : findEntry? n cs with
          | none => simp [resolve, hfind]
          | some c =>
              have hcwf : c.wf = true := hch (n, c) (findEntry?_mem hfind)
              simp [resolve, hfind, ih c hcwf]

theorem insertionSort_pathR_eq {l₁ l₂ : List (List String)} (h : l₁.Perm l₂) :
    List.insertionSort pathR l₁ = List.insertionSort pathR l₂ := by
  haveI : IsTotal (List String) pathR := ⟨fun x y => pathLeB_total x y⟩
  haveI : IsTrans (List String) pathR := ⟨fun x y z => pathLeB_trans x y z⟩
  haveI : IsAntisymm (List String) pathR := ⟨fun x y => pathLeB_antisymm x y⟩
  exact List.eq_of_perm_of_sorted
    (((List.perm_insertionSort pathR l₁).trans h).trans
      (List.perm_insertionSort pathR l₂).symm)
    (List.sorted_insertionSort pathR l₁)
    (List.sorted_insertionSort pathR l₂)

theorem memberFor_sortTree {e : Entry} (hwf : e.wf = true) (q : List String) :
    memberFor (sortTree e) q = memberFor e q := by
  unfold memberFor
  rw [resolve_sortTree q e hwf]
  cases hres : resolve e q with
  | none => rfl
  | some f =>
      cases f with
      | file bs => rfl
      | dir cs => rfl

theorem itemMembers_sortTree {e : Entry} (hwf : e.wf = true) (item : List String) :
    itemMembers (sortTree e) item = itemMembers e item := by
  unfold itemMembers
  rw [resolve_sortTree item e hwf]
  cases hres : resolve e item with
  | none => rfl
  | some f =>
      cases f with
      | file bs => rfl
      | dir cs =>
          show (List.insertionSort pathR
              ((descendants (sortTree (Entry.dir cs))).map (fun q => item ++ q))).filterMap
                (memberFor (sortTree e)) =
            (List.insertionSort pathR
              ((descendants (Entry.dir cs)).map (fun q => item ++ q))).filterMap
                (memberFor e)
          rw [insertionSort_pathR_eq ((descendants_sortTree (Entry.dir cs)).map _)]
          exact filterMap_ext _ _ _ (fun q _ => memberFor_sortTree hwf q)

/-! ## Claim C3: the Archive Builder is deterministic across runs -/

/-- C3: packaging the same input tree twice yields identical archives.
Two runs over the identical on-disk tree observe the same files but may
enumerate each directory's children in different orders; since the
builder sorts the `rglob` listing before writing, both runs emit the same
member sequence.  Observing the same tree is expressed as having the same
canonical (name-sorted) form. -/
theorem create_zip_archive_deterministic (e e' : Entry)
    (hwf : e.wf = true) (hwf' : e'.wf = true)
    (hsame : sortTree e = sortTree e') :
    create_zip_archive e = create_zip_archive e' := by
  have key : ∀ t : Entry, t.wf = true →
      create_zip_archive (sortTree t) = create_zip_archive t := by
    intro t ht
    unfold create_zip_archive
    congr 1
    apply List.map_congr_left
    intro item _
    exact itemMembers_sortTree ht item
  calc create_zip_archive e = create_zip_archive (sortTree e) := (key e hwf).symm
    _ = create_zip_archive (sortTree e') := by rw [hsame]
    _ = create_zip_archive e' := key e' hwf'

theorem create_zip_archive_deterministic_witness :
    create_zip_archive fsZ = create_zip_archive fsZalt :=
  create_zip_archive_deterministic fsZ fsZalt (by decide) (by decide) rfl

/-! ## Claim C6: member names are slash-joined relative file paths -/

/-- C6: every member of the archive is a regular file of the tree, named
by the forward-slash join of its path relative to the packaging root and
carrying that file's contents; and an item of the fixed top-level list
that resolves to nothing contributes no members and no error. -/
theorem create_zip_archive_member_names (root : Entry) (m : String × List Nat)
    (hm : m ∈ create_zip_archive root) :
    (∃ q bs, resolve root q = some (Entry.file bs) ∧
      m = (String.intercalate "/" q, bs)) ∧
    ∀ item, resolve root item = none → itemMembers root item = [] := by
  constructor
  · unfold create_zip_archive at hm
    rw [List.mem_flatten] at hm
    obtain ⟨members, hmem, hm⟩ := hm
    rw [List.mem_map] at hmem
    obtain ⟨item, _, rfl⟩ := hmem
    unfold itemMembers at hm
    cases hres : resolve root item with
    | none =>
        rw [hres] at hm
        simp at hm
    | some f =>
        cases f with
        | file bs =>
            rw [hres] at hm
            rw [List.mem_singleton] at hm
            exact ⟨item, bs, hres, hm⟩
        | dir cs =>
            rw [hres] at hm
            rw [List.mem_filterMap] at hm
            obtain ⟨q, _, hq⟩ := hm
            unfold memberFor at hq
            cases hq2 : resolve root q with
            | none =>
                rw [hq2] at hq
                cases hq
            | some g =>
                cases g with
                | file bs =>
                    rw [hq2] at hq
                    injection hq with hq
                    exact ⟨q, bs, hq2, hq.symm⟩
                | dir ds =>
                    rw [hq2] at hq
                    cases hq
  · intro item h
    simp [itemMembers, h]

theorem create_zip_archive_member_names_witness :
    ∃ q bs, resolve fsZ q = some (Entry.file bs) ∧
      (("metadata.json", [3]) : String × List Nat) = (String.intercalate "/" q, bs) :=
  (create_zip_archive_member_names fsZ ("metadata.json", [3]) (by decide)).1

/-! ## Lemmas about the Hash Computer -/

theorem foldl_append_flatten {α : Type} :
    ∀ (chunks : List (List α)) (acc : List α),
      chunks.foldl (fun acc chunk => acc ++ chunk) acc = acc ++ chunks.flatten := by
  intro chunks
  induction chunks with
  | nil => intro acc; simp
  | cons c chunks ih =>
      intro acc
      simp [List.foldl_cons, ih, List.append_assoc]

theorem readChunks_flatten (l : List Nat) : (readChunks l).flatten = l := by
  have H : ∀ n (l : List Nat), l.length ≤ n → (readChunks l).flatten = l := by
    intro n
    induction n with
    | zero =>
        intro l hl
        cases l with
        | nil => simp [readChunks]
        | cons b bs => simp at hl
    | succ n ih =>
        intro l hl
        cases l with
        | nil => simp [readChunks]
        | cons b bs =>
            simp only [readChunks, List.flatten_cons]
            have hdrop : ((b :: bs).drop 8192).length ≤ n := by
              simp only [List.length_drop, List.length_cons]
              simp only [List.length_cons] at hl
              omega
            rw [ih _ hdrop]
            exact List.take_append_drop 8192 (b :: bs)
  exact H l.length l (Nat.le_refl _)

/-! ## Claim C8: chunked streaming hashing equals the one-shot hash -/

/-- C8: feeding the file to the hasher in fixed 8192-byte chunks produces
the hex digest of the file's full byte stream — the streaming computation
equals the one-shot hash — and since the digest is a function of the
contents alone, identical contents always yield the identical hex
string. -/
theorem compute_sha256_eq_one_shot (h : HashModel) (content : List Nat) :
    compute_sha256 h content = h.hexOf content := by
  rw [compute_sha256, foldl_append_flatten, List.nil_append, readChunks_flatten]

/-! ## Claim C5: validation failures are never fatal -/

/-- C5: for every archive whose member list is missing `metadata.json` or
one of the required directory name markers, the validation step produces
a nonempty list of warnings, yet the run still ends with a successful
exit status and the archive already on disk is left exactly as written. -/
theorem validator_never_fatal (archive : List (String × List Nat))
    (hmiss : "metadata.json" ∉ archive.map Prod.fst ∨
      (archive.map Prod.fst).any (fun n => strStarts "symbols/" n) = false ∨
      (archive.map Prod.fst).any (fun n => strStarts "footprints/" n) = false) :
    (run_validation archive).warnings ≠ [] ∧
    (run_validation archive).exitSuccess = true ∧
    (run_validation archive).archiveAfter = some archive := by
  refine ⟨?_, rfl, rfl⟩
  show validation_warnings (archive.map Prod.fst) ≠ []
  intro hempty
  rw [validation_warnings, List.append_eq_nil] at hempty
  rcases hmiss with h | h | h
  · have h1 := hempty.1
    simp [requiredMembers, List.filter_cons, h] at h1
  · have h2 := hempty.2
    simp [requiredDirMarkers, List.filter_cons, h] at h2
  · have h2 := hempty.2
    simp [requiredDirMarkers, List.filter_cons, h] at h2
    split at h2
    · cases h2
    · cases h2

theorem validator_never_fatal_witness :
    (run_validation [("symbols/a.kicad_sym", [1])]).warnings ≠ [] :=
  (validator_never_fatal [("symbols/a.kicad_sym", [1])] (Or.inl (by decide))).1

end Pulsar
